import Mathlib

/-!
Verification development for the `teamspeak-updater` repository.

The repository keeps a locally installed TeamSpeak server release in sync with
the newest version published on a remote mirror.  This file gives a shallow
embedding of the program's data model and operations:

* `Version`, `cmpVersion`, `Version.parse`, `Version.toString` — the
  `semver::Version` values the program compares (the crate's `Ord`, `parse`
  and `Display` as used by `src/main.rs`, `src/remote.rs`, `src/local.rs`);
* `Tuple`, `ArchiveType`, `Tuple.from_str`, `Tuple.target_string`,
  `Tuple.archive_filename`, `Tuple.archive_type` — `src/target.rs`;
* `versions`, `latest_version` — `src/remote.rs` (the HTML scraping layer is
  external; a listing is modelled by the list of its anchor-link text tokens);
* `move_extracted_files` and its helpers over an explicit filesystem model —
  `src/local.rs` (materialization);
* `swap_link` over a symlink-table filesystem model — `src/local.rs`
  (activation), together with the panic-precondition model of its prelude;
* `mainStages`, `mainExitCode` — the orchestration in `src/main.rs`.
-/

namespace TSUpdater

/-- Pre-release identifier of a semantic version.  The `semver` crate stores the
pre-release as a string of dot-separated identifiers; parsing rejects leading
zeros in all-digit identifiers, so an all-digit identifier is represented
canonically here by its numeric value (`num`), and any other identifier by its
text (`alpha`). -/
inductive PreId where
  | num (n : Nat)
  | alpha (s : String)
deriving DecidableEq, Repr

/-- A semantic version, mirroring `semver::Version`: `major.minor.patch` with
optional pre-release and build metadata. -/
structure Version where
  major : Nat
  minor : Nat
  patch : Nat
  pre : List PreId
  build : List String
deriving DecidableEq, Repr

/-- Comparator of a linear order, mirroring Rust's `Ord::cmp` (used on `u64`
fields, identifier strings and lengths). -/
def cmpOrd {α : Type} [LinearOrder α] (a b : α) : Ordering :=
  if a < b then .lt else if b < a then .gt else .eq

/-- The laws of a total-order comparator used in this development:
reflexivity (`cmp a a = .eq`), antisymmetric swap, transitivity of `.lt`,
and left congruence of `.eq`. -/
structure CmpLaws {α : Type} (cmp : α → α → Ordering) : Prop where
  refl : ∀ a, cmp a a = .eq
  swap : ∀ a b, cmp a b = (cmp b a).swap
  lt_trans : ∀ {a b c}, cmp a b = .lt → cmp b c = .lt → cmp a c = .lt
  congr_left : ∀ {a b} (c : α), cmp a b = .eq → cmp a c = cmp b c

/-- Identifier-level ordering of `semver::Prerelease`: numeric identifiers
compare numerically and are less than alphanumeric ones; alphanumeric
identifiers compare lexically. -/
def cmpPreId : PreId → PreId → Ordering
  | .num a, .num b => cmpOrd a b
  | .num _, .alpha _ => .lt
  | .alpha _, .num _ => .gt
  | .alpha a, .alpha b => cmpOrd a b

/-- Lexicographic comparison of identifier lists with a shared element
comparator: an exhausted left list is `Less`, an exhausted right list is
`Greater` (the `semver` crate's loop over dot-separated identifiers). -/
def cmpList {α : Type} (cmp : α → α → Ordering) : List α → List α → Ordering
  | [], [] => .eq
  | [], _ :: _ => .lt
  | _ :: _, [] => .gt
  | a :: as, b :: bs =>
    match cmp a b with
    | .eq => cmpList cmp as bs
    | o => o

/-- `str::trim_start_matches('0')` applied to an identifier. -/
def trimZeros (s : String) : String := String.mk (s.data.dropWhile (fun c => c = '0'))

/-- Rust `s.bytes().all(|b| b.is_ascii_digit())` on an identifier. -/
def isDigits (s : String) : Bool := s.data.all (fun c => c.isDigit)

/-- Numeric build-identifier comparison of the `semver` crate
(`0 < 00 < 1 < 01 < 001 < 2 < 02 < 002 < 10`): compare the values obtained by
trimming leading zeros (length of the trimmed digit string first, then the
trimmed string lexically), then break ties by the untrimmed length.  The crate
writes this as `if lhval.len() != rhval.len() \x7b lhval.len().cmp(..) \x7d else
\x7b lhval.cmp(rhval) \x7d` followed by an equality check, which is the same
function as this right-nested `Ordering.then` chain. -/
def cmpNumStr (a b : String) : Ordering :=
  (cmpOrd (trimZeros a).length (trimZeros b).length).then
    ((cmpOrd (trimZeros a) (trimZeros b)).then (cmpOrd a.length b.length))

/-- Identifier-level ordering of `semver::BuildMetadata`: all-digit identifiers
compare via `cmpNumStr` and are less than non-digit identifiers; non-digit
identifiers compare lexically. -/
def cmpBuildId (a b : String) : Ordering :=
  match isDigits a, isDigits b with
  | true, true => cmpNumStr a b
  | true, false => .lt
  | false, true => .gt
  | false, false => cmpOrd a b

/-- `semver::Prerelease` ordering: an empty pre-release (a release) is greater
than any non-empty pre-release; non-empty identifier lists compare
lexicographically. -/
def cmpPre (a b : List PreId) : Ordering :=
  match a, b with
  | [], [] => .eq
  | [], _ :: _ => .gt
  | _ :: _, [] => .lt
  | _ :: _, _ :: _ => cmpList cmpPreId a b

/-- `impl Ord for semver::Version`: compare major, minor, patch, then
pre-release precedence, with build metadata as the final tiebreak (the crate's
sequence of `match ... Ordering::Equal => ...` steps, written as a right-nested
`Ordering.then` chain with the same value). -/
def cmpVersion (a b : Version) : Ordering :=
  (cmpOrd a.major b.major).then
    ((cmpOrd a.minor b.minor).then
      ((cmpOrd a.patch b.patch).then
        ((cmpPre a.pre b.pre).then (cmpList cmpBuildId a.build b.build))))

/-- `installed < published` as the program computes it: Rust `<` on
`semver::Version` is `cmp(..) == Ordering::Less`. -/
def versionLt (a b : Version) : Bool := cmpVersion a b = .lt

/-- Split a character list at every occurrence of a separator character, as the
`semver` crate splits identifier sequences on `'.'` and the whole input on
`'+'`: an empty input yields one empty piece. -/
def splitOnChar (c : Char) : List Char → List (List Char)
  | [] => [[]]
  | x :: xs =>
    if x = c then [] :: splitOnChar c xs
    else
      match splitOnChar c xs with
      | h :: t => (x :: h) :: t
      | [] => [[x]]

/-- Decimal value of a digit list. -/
def digitsVal (l : List Char) : Nat := l.foldl (fun n c => n * 10 + (c.toNat - 48)) 0

/-- A `major`/`minor`/`patch` component as `semver::Version::parse` accepts it:
nonempty, all ASCII digits, no leading zero, and within `u64` range
(`u64::from_str` overflow is an error). -/
def parseNumericId (l : List Char) : Option Nat :=
  if l = [] then none
  else if ¬ l.all (fun c => c.isDigit) then none
  else if l.length > 1 ∧ l.head? = some '0' then none
  else if digitsVal l < 2 ^ 64 then some (digitsVal l) else none

/-- The characters `semver` allows inside pre-release and build identifiers:
ASCII alphanumerics and hyphen. -/
def isIdentChar (c : Char) : Bool := c.isDigit || c.isAlpha || c = '-'

/-- One pre-release identifier: nonempty, over the identifier alphabet; an
all-digit identifier must not have a leading zero and is kept as its numeric
value, any other identifier as its text. -/
def parsePreId (l : List Char) : Option PreId :=
  if l = [] then none
  else if ¬ l.all isIdentChar then none
  else if l.all (fun c => c.isDigit) then
    if l.length > 1 ∧ l.head? = some '0' then none
    else some (.num (digitsVal l))
  else some (.alpha (String.mk l))

/-- One build-metadata identifier: nonempty, over the identifier alphabet
(leading zeros are allowed in build metadata). -/
def parseBuildId (l : List Char) : Option String :=
  if l = [] then none
  else if ¬ l.all isIdentChar then none
  else some (String.mk l)

/-- Parse `major.minor.patch[-pre]` plus an optional build part.  The first
`'-'` of the version part necessarily separates the dotted numeric core from
the pre-release, since `'-'` cannot occur inside the numeric core. -/
def Version.parseParts (vpart : List Char) (bpart : Option (List Char)) : Option Version := do
  let core := vpart.takeWhile (fun c => c ≠ '-')
  let rest := vpart.dropWhile (fun c => c ≠ '-')
  let [mj, mi, pa] := splitOnChar '.' core | none
  let major ← parseNumericId mj
  let minor ← parseNumericId mi
  let patch ← parseNumericId pa
  let pre ← match rest with
    | [] => some ([] : List PreId)
    | _ :: t => (splitOnChar '.' t).mapM parsePreId
  let build ← match bpart with
    | none => some ([] : List String)
    | some b => (splitOnChar '.' b).mapM parseBuildId
  some { major, minor, patch, pre, build }

/-- `semver::Version::parse`: `major.minor.patch` with optional `-pre` and
`+build`, rejecting anything else (a second `'+'` necessarily makes an invalid
build identifier, so splitting on `'+'` into more than two pieces fails exactly
as the crate's sequential parser does). -/
def Version.parse (s : String) : Option Version :=
  match splitOnChar '+' s.data with
  | [vpart] => Version.parseParts vpart none
  | [vpart, bpart] => Version.parseParts vpart (some bpart)
  | _ => none

/-- Rendering of one pre-release identifier. -/
def PreId.render : PreId → String
  | .num n => Nat.repr n
  | .alpha s => s

/-- `Display for semver::Version`: `major.minor.patch`, then `-pre` and
`+build` when non-empty. -/
def Version.toString (v : Version) : String :=
  Nat.repr v.major ++ "." ++ Nat.repr v.minor ++ "." ++ Nat.repr v.patch
    ++ (if v.pre.isEmpty then "" else "-" ++ String.intercalate "." (v.pre.map PreId.render))
    ++ (if v.build.isEmpty then "" else "+" ++ String.intercalate "." v.build)

/-- `target::Tuple` (src/target.rs): the supported platform/architecture
tuples. -/
inductive Tuple where
  | WindowsX86
  | WindowsX8664
  | LinuxX8664
  | Mac
  | FreeBSDX8664
  | LinuxAlpine
  | LinuxX86
deriving DecidableEq, Repr

/-- `target::TupleError` (src/target.rs). -/
inductive TupleError where
  | NotRecognized (s : String)
deriving DecidableEq, Repr

/-- `target::ArchiveType` (src/target.rs). -/
inductive ArchiveType where
  | Bzip2Tarball
  | Zip
deriving DecidableEq, Repr

/-- `ArchiveType::extension` (src/target.rs). -/
def ArchiveType.extension : ArchiveType → String
  | .Bzip2Tarball => "tar.bz2"
  | .Zip => "zip"

/-- Rust `str::to_lowercase` as applied by `Tuple::from_str`, modelled
per-character; it agrees with the Rust function on ASCII input, which covers
every recognized identifier. -/
def strToLower (s : String) : String := String.mk (s.data.map Char.toLower)

/-- `impl FromStr for Tuple` (src/target.rs): lowercase the input, match the
seven identifiers, otherwise `TupleError::NotRecognized` carrying the original
input. -/
def Tuple.from_str (s : String) : Except TupleError Tuple :=
  match strToLower s with
  | "linux_amd64" => .ok .LinuxX8664
  | "win64" => .ok .WindowsX8664
  | "linux_alpine" => .ok .LinuxAlpine
  | "freebsd_amd64" => .ok .FreeBSDX8664
  | "mac" => .ok .Mac
  | "win32" => .ok .WindowsX86
  | "linux_x86" => .ok .LinuxX86
  | _ => .error (.NotRecognized s)

/-- `Tuple::target_string` (src/target.rs). -/
def Tuple.target_string : Tuple → String
  | .LinuxAlpine => "linux_alpine"
  | .LinuxX86 => "linux_x86"
  | .FreeBSDX8664 => "freebsd_amd64"
  | .LinuxX8664 => "linux_amd64"
  | .Mac => "mac"
  | .WindowsX86 => "win32"
  | .WindowsX8664 => "win64"

/-- `Tuple::archive_type` (src/target.rs). -/
def Tuple.archive_type : Tuple → ArchiveType
  | .Mac | .WindowsX86 | .WindowsX8664 => .Zip
  | _ => .Bzip2Tarball

/-- `Tuple::archive_filename` (src/target.rs):
`format!("teamspeak3-server_\x7b\x7d-\x7b\x7d.\x7b\x7d", target_string, version, extension)`. -/
def Tuple.archive_filename (t : Tuple) (version : Version) : String :=
  "teamspeak3-server_" ++ t.target_string ++ "-" ++ version.toString ++ "."
    ++ t.archive_type.extension

/-- The version tokens collected from a listing document (src/remote.rs
`versions`): each anchor-link text is parsed as a `semver::Version`;
unparseable tokens are silently discarded.  The HTML scraping layer (`scraper`
crate, selector `pre > a`) is an excluded external collaborator, so a listing
document is modelled by the list of its anchor-link text tokens. -/
def versions (tokens : List String) : List Version := tokens.filterMap Version.parse

/-- Rust `Iterator::max`: the maximum element, the last one in case of ties. -/
def listMax (l : List Version) : Option Version :=
  match l with
  | [] => none
  | v :: vs => some (vs.foldl (fun m x => if cmpVersion x m = .lt then m else x) v)

/-- The error of `remote::latest_version` when no version token parses. -/
def noVersionsMsg : String := "no versions are collected from remote endpoint"

/-- `remote::latest_version` (src/remote.rs): collect the parsed versions, take
`Iterator::max`, and fail with the no-versions error when none were
collected.  Transport is an excluded external collaborator, so the function is
modelled on the fetched listing's tokens. -/
def latest_version (tokens : List String) : Except String Version :=
  match listMax (versions tokens) with
  | some v => .ok v
  | none => .error noVersionsMsg

/-- Relative filesystem path under the releases root, as a segment list. -/
abbrev RelPath := List String

/-- A destination filesystem node: a directory or a regular file with its
contents. -/
inductive Node where
  | dirNode
  | fileNode (content : String)
deriving DecidableEq, Repr

/-- The destination filesystem (the area under `releases_path`), as a finite
path-to-node table. -/
abbrev DestFs := List (RelPath × Node)

def lookupFs (fs : DestFs) (p : RelPath) : Option Node :=
  match fs with
  | [] => none
  | (q, n) :: rest => if q = p then some n else lookupFs rest p

/-- The I/O error kinds the embedded slice of the program distinguishes.
`outOfFuel` is an artifact of the loop embedding only: it is the value of the
walk when its iteration bound runs out, and `walkQueue_fuel_irrelevant` shows
the bound `move_extracted_files` passes never reaches it. -/
inductive IoErr where
  | alreadyExists
  | notADirectory
  | isADirectory
  | readFailed
  | notFound
  | outOfFuel
deriving DecidableEq, Repr

/-- The `ignore_exists_error` closure of `move_extracted_files`
(src/local.rs lines 75-82): an `AlreadyExists` error becomes success, any
other error is kept. -/
def ignore_exists_error : IoErr → Except IoErr Unit
  | .alreadyExists => .ok ()
  | e => .error e

/-- `tokio::fs::create_dir`: fails with `AlreadyExists` when the path already
holds any node, otherwise records a directory.  (Environmental failures such
as permission errors are outside the filesystem model.) -/
def createDir (fs : DestFs) (p : RelPath) : Except IoErr DestFs :=
  match lookupFs fs p with
  | some _ => .error .alreadyExists
  | none => .ok ((p, .dirNode) :: fs)

/-- `fs::create_dir(..).or_else(ignore_exists_error)` as `move_extracted_files`
performs it (src/local.rs lines 84-86 and 101-103). -/
def createDirIgnoring (fs : DestFs) (p : RelPath) : Except IoErr DestFs :=
  match createDir fs p with
  | .ok fs' => .ok fs'
  | .error e =>
    match ignore_exists_error e with
    | .ok _ => .ok fs
    | .error e' => .error e'

/-- The extracted source tree inside the scratch temporary directory.  A
directory carries its entry stream: the entries its `read_dir` yields, and
`readErr` when the stream then ends in an I/O error instead of `Ok(None)`
(entries after a stream error are never requested by the code, so a mid-stream
error is represented by the entries before it plus the error). -/
inductive FsTree where
  | file (content : String)
  | dir (entries : List (String × FsTree)) (readErr : Option IoErr)

/-- One pending item of the materializer's read queue: the destination
directory path (`root_path` in the code) paired with the source directory's
entry stream (its `read_dir`) and the source directory's scratch-relative path
(reconstructing `entry.path()` for recorded files). -/
structure QueueItem where
  destPath : RelPath
  srcPath : List String
  entries : List (String × FsTree)
  readErr : Option IoErr

mutual
/-- Size of a source tree, the basis of the walk's decreasing measure. -/
def FsTree.size : FsTree → Nat
  | .file _ => 1
  | .dir es _ => 1 + sizeEntries es
/-- Total size of an entry stream (entries plus everything below them), the
strictly decreasing measure of the walk's queue. -/
def sizeEntries : List (String × FsTree) → Nat
  | [] => 1
  | (_, t) :: rest => 1 + FsTree.size t + sizeEntries rest
end

/-- The inner loop of the walk in `move_extracted_files` (src/local.rs lines
92-110) over one directory's entry stream: a directory entry gets its mirror
directory created under `root_path` (already-exists ignored) and is queued
together with its own `read_dir` (`append_dirs`); a file entry's source path
is recorded (`file_paths`).  Returns the updated destination filesystem, the
queued directories, and the recorded files with their contents. -/
def processEntries (fs : DestFs) (destPath : RelPath) (srcPath : List String) :
    List (String × FsTree) →
    Except IoErr (DestFs × List QueueItem × List (List String × String))
  | [] => .ok (fs, [], [])
  | (name, .file c) :: rest => do
    let (fs', dirs, files) ← processEntries fs destPath srcPath rest
    .ok (fs', dirs, (srcPath ++ [name], c) :: files)
  | (name, .dir es err) :: rest => do
    let fs' ← createDirIgnoring fs (destPath ++ [name])
    let (fs'', dirs, files) ← processEntries fs' destPath srcPath rest
    .ok (fs'', ⟨destPath ++ [name], srcPath ++ [name], es, err⟩ :: dirs, files)

theorem processEntries_dirs_size {fs : DestFs} {destPath : RelPath}
    {srcPath : List String} {es : List (String × FsTree)} {fs' : DestFs}
    {dirs : List QueueItem} {files : List (List String × String)}
    (h : processEntries fs destPath srcPath es = .ok (fs', dirs, files)) :
    (dirs.map (fun q => sizeEntries q.entries)).sum < sizeEntries es := by
  induction es generalizing fs dirs files with
  | nil =>
    simp only [processEntries] at h
    cases h
    simp [sizeEntries]
  | cons e rest ih =>
    obtain ⟨name, t⟩ := e
    cases t with
    | file c =>
      simp only [processEntries, bind, Except.bind] at h
      cases hr : processEntries fs destPath srcPath rest with
      | error e0 => simp only [hr] at h; cases h
      | ok r =>
        obtain ⟨fsr, dirsr, filesr⟩ := r
        simp only [hr] at h
        cases h
        have := ih hr
        simp only [sizeEntries, FsTree.size]
        omega
    | dir es2 err =>
      simp only [processEntries, bind, Except.bind] at h
      cases hc : createDirIgnoring fs (destPath ++ [name]) with
      | error e0 => rw [hc] at h; cases h
      | ok fsA =>
        simp only [hc] at h
        cases hr : processEntries fsA destPath srcPath rest with
        | error e0 => simp only [hr] at h; cases h
        | ok r =>
          obtain ⟨fsr, dirsr, filesr⟩ := r
          simp only [hr] at h
          cases h
          have := ih hr
          simp only [List.map_cons, List.sum_cons, sizeEntries, FsTree.size]
          omega

/-- The outer loop of the walk in `move_extracted_files` (src/local.rs lines
90-113): pop a queue item, run the inner loop on its entry stream (a stream
error after the listed entries ends the `while let Ok(Some(..))` iteration and
is dropped), push the discovered directories, and accumulate the recorded
files.  The code pops from the end of a `Vec` and appends with `extend`; the
model keeps the stack top at the list head and pushes the discovered
directories reversed, which pops them in the same order.  The loop carries an
explicit iteration bound to stay structurally recursive: the queue's total
entry size (`sizeEntries`) strictly decreases each iteration
(`processEntries_dirs_size`), any
bound above it yields the same result (`walkQueue_fuel_irrelevant`), and
`move_extracted_files` passes such a bound, so the `outOfFuel` case is
unreachable from it. -/
def walkQueue : Nat → List QueueItem → DestFs →
    List (List String × String) →
    Except IoErr (DestFs × List (List String × String))
  | _, [], fs, files => .ok (fs, files)
  | 0, _ :: _, _, _ => .error .outOfFuel
  | fuel + 1, item :: rest, fs, files =>
    match processEntries fs item.destPath item.srcPath item.entries with
    | .error e => .error e
    | .ok (fs', dirs, newFiles) =>
      walkQueue fuel (dirs.reverse ++ rest) fs' (files ++ newFiles)

/-- The destination write list built before copying (src/local.rs lines
115-130): each recorded source path is made relative to the scratch root
(`strip_prefix`), its first segment — the wrapper directory — is dropped
(`iter().skip(1)`), and the remainder is joined onto the version path. -/
def destWrites (versionPath : RelPath) (files : List (List String × String)) :
    List (RelPath × String) :=
  files.map (fun f => (versionPath ++ f.1.drop 1, f.2))

def insertFs (fs : DestFs) (p : RelPath) (n : Node) : DestFs :=
  match fs with
  | [] => [(p, n)]
  | (q, m) :: rest => if q = p then (p, n) :: rest else (q, m) :: insertFs rest p n

/-- `tokio::fs::copy` into the destination filesystem: overwrites a regular
file, fails when the destination path holds a directory. -/
def copyFile (fs : DestFs) (p : RelPath) (content : String) : Except IoErr DestFs :=
  match lookupFs fs p with
  | some .dirNode => .error .isADirectory
  | _ => .ok (insertFs fs p (.fileNode content))

/-- `future::try_join_all` over the copy futures (src/local.rs line 132),
modelled sequentially: the step succeeds when every copy succeeds and fails
with the first failure. -/
def copyFiles (fs : DestFs) : List (RelPath × String) → Except IoErr DestFs
  | [] => .ok fs
  | (p, c) :: rest => do
    let fs' ← copyFile fs p c
    copyFiles fs' rest

/-- The unwrap step of `move_extracted_files` (src/local.rs lines 65-70):
`if let Ok(Some(entry)) = read_dir.next_entry().await \x7b read_dir =
fs::read_dir(entry.path()).await? \x7d`.  When the scratch root yields a first
entry the walk descends into that entry — `read_dir` of a file entry fails
with `NotADirectory` and propagates via `?`; when the root yields no first
entry (empty root, or an immediate stream error silently discarded by the
`if let` pattern) the walk keeps the already-exhausted root stream.  Returns
the entry stream to walk, its trailing stream error, and the wrapper entry's
name when the walk descended. -/
def unwrapRoot (entries : List (String × FsTree)) (readErr : Option IoErr) :
    Except IoErr (List (String × FsTree) × Option IoErr × Option String) :=
  match entries with
  | [] => .ok ([], readErr, none)
  | (_, .file _) :: _ => .error .notADirectory
  | (name, .dir es err) :: _ => .ok (es, err, some name)

/-- `move_extracted_files` (src/local.rs lines 52-135): canonicalize the
releases path and push the version string (canonicalization is modelled as the
identity on the model's already-canonical relative paths, with the version
directory as the root), unwrap the scratch root, create the version directory
treating `AlreadyExists` as success, walk the tree creating mirror directories
and recording files, then copy every recorded file to its wrapper-stripped
destination. -/
def move_extracted_files (tempEntries : List (String × FsTree))
    (tempReadErr : Option IoErr) (published_version : Version) (fs : DestFs) :
    Except IoErr DestFs := do
  let versionPath : RelPath := [published_version.toString]
  let (es, rerr, wrapper) ← unwrapRoot tempEntries tempReadErr
  let srcBase : List String := match wrapper with
    | some n => [n]
    | none => []
  let fs1 ← createDirIgnoring fs versionPath
  let (fs2, files) ← walkQueue (sizeEntries es + 1) [⟨versionPath, srcBase, es, rerr⟩] fs1 []
  copyFiles fs2 (destWrites versionPath files)

/-- The net effect of the copy stage on the destination filesystem: each write
overwrites its destination path in order. -/
def applyCopies (fs : DestFs) (ws : List (RelPath × String)) : DestFs :=
  ws.foldl (fun acc w => insertFs acc w.1 (.fileNode w.2)) fs

/-- The content of the last write to `p` in a write list. -/
def lastWrite (p : RelPath) : List (RelPath × String) → Option String
  | [] => none
  | w :: rest =>
    match lastWrite p rest with
    | some c => some c
    | none => if w.1 = p then some w.2 else none

/-- Absolute filesystem path for the activation model, as a segment list
(paths in this model are already canonical). -/
abbrev AbsPath := List String

/-- The filesystem state the activation swapper touches: the symbolic-link
table (link path to target path) and the existing real directories (which the
swapper never modifies). -/
structure LinkFS where
  links : List (AbsPath × AbsPath)
  dirs : List AbsPath
deriving DecidableEq, Repr

def lookupLink (links : List (AbsPath × AbsPath)) (p : AbsPath) : Option AbsPath :=
  match links with
  | [] => none
  | (q, t) :: rest => if q = p then some t else lookupLink rest p

/-- `Path::set_file_name`: replace the final segment. -/
def setFileName (p : AbsPath) (name : String) : AbsPath := p.dropLast ++ [name]

/-- `canonicalize` on a directory path in the model: the identity on an
existing directory, `NotFound` otherwise. -/
def canonicalizeDir (fs : LinkFS) (p : AbsPath) : Except IoErr AbsPath :=
  if p ∈ fs.dirs then .ok p else .error .notFound

/-- Remove every link entry at a path from the symlink table. -/
def removeLink (links : List (AbsPath × AbsPath)) (p : AbsPath) :
    List (AbsPath × AbsPath) :=
  match links with
  | [] => []
  | (q, t) :: rest => if q = p then removeLink rest p else (q, t) :: removeLink rest p

/-- `tokio::fs::rename` on the symlink table: a rename moves the link entry
itself (never its target, and never deleting anything), failing when the old
path is not present. -/
def renameLink (fs : LinkFS) (old new : AbsPath) : Except IoErr LinkFS :=
  match lookupLink fs.links old with
  | none => .error .notFound
  | some tgt =>
    .ok { fs with links := (new, tgt) :: removeLink fs.links old }

/-- `tokio::fs::symlink_dir`: creates a new symbolic link at `linkPath`
pointing to `target`; fails with `AlreadyExists` when the link path already
exists. -/
def symlinkDir (fs : LinkFS) (target linkPath : AbsPath) : Except IoErr LinkFS :=
  if (lookupLink fs.links linkPath).isSome ∨ linkPath ∈ fs.dirs then
    .error .alreadyExists
  else .ok { fs with links := (linkPath, target) :: fs.links }

/-- `swap_link` (src/local.rs lines 137-173) over the activation filesystem
model, returning both filesystem states it creates, in order: compute the
backup name `<pointer-filename>.<unix-timestamp-seconds>` via
`set_file_name`, canonicalize the releases path and push the version string
(the new link target), then first rename the active pointer to the backup name
and only afterwards create the new link at the original pointer path.  The
prelude's panic conditions are modelled by `swapLinkBackupName`; this function
takes the happy path where the pointer path has a final UTF-8 segment and the
clock is past the epoch. -/
def swap_link (fs : LinkFS) (symlink_path : AbsPath) (releases_path : AbsPath)
    (published_version : Version) (unix_timestamp : Nat) :
    Except IoErr (LinkFS × LinkFS) := do
  let symlink_file_name := (symlink_path.getLast?).getD ""
  let new_path := setFileName symlink_path
    (symlink_file_name ++ "." ++ Nat.repr unix_timestamp)
  let croot ← canonicalizeDir fs releases_path
  let new_symlink_src := croot ++ [published_version.toString]
  let fs1 ← renameLink fs symlink_path new_path
  let fs2 ← symlinkDir fs1 new_symlink_src symlink_path
  .ok (fs1, fs2)

/-- A component of the configured symlink path, as Rust's `Path::components`
yields them: the root, a `..` component, or a normal component whose name
either is valid UTF-8 (`some`) or is not (`none`). -/
inductive PathComp where
  | rootDir
  | parentDir
  | normal (utf8 : Option String)
deriving DecidableEq, Repr

/-- `Path::file_name` followed by `OsStr::to_str`: the outer `Option` is
`none` when the path has no final normal component (a root path, or a path
ending in `..`); the inner `Option` is the component's UTF-8 text, `none` when
the name is not valid UTF-8. -/
def fileNameOf (p : List PathComp) : Option (Option String) :=
  match p.getLast? with
  | some (.normal n) => some n
  | _ => none

/-- The result of `SystemTime::now().duration_since(UNIX_EPOCH)`: an error
when the system clock reads before the Unix epoch, otherwise the elapsed
seconds. -/
structure Clock where
  beforeEpoch : Bool
  secs : Nat
deriving DecidableEq, Repr

/-- The prelude of `swap_link` (src/local.rs lines 146-157) computing the
backup file name; `none` models a panic: `.expect("symlink should expose
filename")` when the path has no final normal component, `.expect("symlink
filename is valid utf-8")` when that component is not UTF-8, and `.unwrap()`
when the system clock reads before the Unix epoch. -/
def swapLinkBackupName (symlink_path : List PathComp) (clock : Clock) :
    Option String :=
  match fileNameOf symlink_path with
  | none => none
  | some none => none
  | some (some name) =>
    if clock.beforeEpoch then none
    else some (name ++ "." ++ Nat.repr clock.secs)

/-- The mutating pipeline stages of `main` (src/main.rs lines 539-551):
`download_release`, then `extract_archive` — which extracts and then
materializes via `move_extracted_files` — then `swap_link`. -/
inductive Stage where
  | download
  | extract
  | materialize
  | activate
deriving DecidableEq, Repr

/-- Outcome of one run of `main` after both versions resolved successfully. -/
inductive RunResult where
  | updated
  | upToDate
  | failed (stage : Stage)
deriving DecidableEq, Repr

/-- The orchestration of `main` (src/main.rs lines 536-557) after both
versions resolved, parametrized by which stages would succeed: when
`installed_version < published_version` the pipeline runs download, extract,
materialize and activate strictly in order, stopping at the first failing
stage (`?` propagation); otherwise no stage runs and the run is the
up-to-date no-op.  Returns the stages attempted, in order, and the run
result. -/
def mainStages (installed_version published_version : Version)
    (stageOk : Stage → Bool) : List Stage × RunResult :=
  if versionLt installed_version published_version then
    if ¬ stageOk .download then ([.download], .failed .download)
    else if ¬ stageOk .extract then ([.download, .extract], .failed .extract)
    else if ¬ stageOk .materialize then
      ([.download, .extract, .materialize], .failed .materialize)
    else if ¬ stageOk .activate then
      ([.download, .extract, .materialize, .activate], .failed .activate)
    else ([.download, .extract, .materialize, .activate], .updated)
  else ([], .upToDate)

/-- The process exit status of `main` (src/main.rs lines 552-557): returning
`Ok(())` exits 0; the up-to-date branch calls `exit(1)`; a propagated stage
error makes `main` return `Err`, which terminates with the non-zero failure
status. -/
def mainExitCode : RunResult → Nat
  | .updated => 0
  | .upToDate => 1
  | .failed _ => 1

/-- The version `3.13.7`. -/
def v3137 : Version := { major := 3, minor := 13, patch := 7, pre := [], build := [] }

/-- The version `3.13.8`. -/
def v3138 : Version := { major := 3, minor := 13, patch := 8, pre := [], build := [] }

/-- The wrapper entries of the first top-level directory in the two-entry
extraction root below. -/
def aEntries : List (String × FsTree) := [("f", FsTree.file "xx")]

/-- An extraction root with two top-level directories. -/
def twoRootEntries : List (String × FsTree) :=
  [("A", .dir aEntries none), ("B", .dir [("g", FsTree.file "yy")] none)]

/-- The extracted directory of the single-wrapper scenario: one wrapper folder
`TeamSpeakServer` containing `bin`, `libs` and a license file. -/
def wrapTree : List (String × FsTree) :=
  [("TeamSpeakServer",
    .dir [("bin", .dir [("ts3server", FsTree.file "elf")] none),
          ("libs", .dir ([] : List (String × FsTree)) none),
          ("LICENSE", FsTree.file "gpl")] none)]

/-- An extracted tree whose `data` subdirectory's entry stream fails with an
I/O error, with a sibling file after it. -/
def readErrTree : List (String × FsTree) :=
  [("W", .dir [("data", .dir ([] : List (String × FsTree)) (some .readFailed)),
               ("kept", FsTree.file "k")] none)]

/-- A single-wrapper tree whose file collides with an existing directory in
the destination. -/
def clashTree : List (String × FsTree) := [("W", .dir [("x", FsTree.file "c")] none)]

/-- A destination already holding a directory where `clashTree`'s file lands. -/
def clashFs : DestFs := [(["3.13.7"], Node.dirNode), (["3.13.7", "x"], Node.dirNode)]

/-- A concrete extracted tree for the idempotence witness. -/
def idemTree : List (String × FsTree) :=
  [("Wrap", .dir [("d", .dir [("a", FsTree.file "one")] none),
                  ("b", FsTree.file "two")] none)]

/-- The release tree the first run of the idempotence witness materializes. -/
def idemFs1 : DestFs :=
  [(["3.13.7", "d"], .dirNode), (["3.13.7"], .dirNode),
   (["3.13.7", "b"], .fileNode "two"), (["3.13.7", "d", "a"], .fileNode "one")]

/-- The starting activation filesystem of the C2 witness: a pointer at
`/opt/teamspeak` to the installed `3.13.7` release, with the `3.13.8` release
already materialized. -/
def swapFs0 : LinkFS :=
  { links := [(["opt", "teamspeak"], ["opt", "rel", "3.13.7"])],
    dirs := [["opt", "rel"], ["opt", "rel", "3.13.7"], ["opt", "rel", "3.13.8"]] }

theorem ordering_swap_eq_eq {o : Ordering} : o.swap = .eq ↔ o = .eq := by
  cases o <;> simp [Ordering.swap]

theorem ordering_swap_eq_lt {o : Ordering} : o.swap = .lt ↔ o = .gt := by
  cases o <;> simp [Ordering.swap]

theorem ordering_swap_ne_gt {o : Ordering} : o.swap ≠ .gt ↔ o ≠ .lt := by
  cases o <;> simp [Ordering.swap]

theorem CmpLaws.congr_right {α : Type} {cmp : α → α → Ordering} (h : CmpLaws cmp)
    {b c : α} (a : α) (hbc : cmp b c = .eq) : cmp a b = cmp a c := by
  have hcb : cmp c b = .eq := by
    have := h.swap b c
    rw [hbc] at this
    exact (ordering_swap_eq_eq.mp this.symm)
  have := h.congr_left (c := a) hcb
  calc cmp a b = (cmp b a).swap := h.swap a b
    _ = (cmp c a).swap := by rw [← h.congr_left a hcb]
    _ = cmp a c := (h.swap a c).symm

theorem cmpOrd_lt_iff {α : Type} [LinearOrder α] {a b : α} :
    cmpOrd a b = .lt ↔ a < b := by
  unfold cmpOrd
  split_ifs with h1 h2
  · simp [h1]
  · simp [h1, h2, ne_of_gt h2]
  · simp [h1]

theorem cmpOrd_eq_iff {α : Type} [LinearOrder α] {a b : α} :
    cmpOrd a b = .eq ↔ a = b := by
  unfold cmpOrd
  split_ifs with h1 h2
  · simp [ne_of_lt h1]
  · simp [(ne_of_lt h2).symm]
  · simp [le_antisymm (not_lt.mp h2) (not_lt.mp h1)]

theorem cmpOrd_laws {α : Type} [LinearOrder α] : CmpLaws (cmpOrd (α := α)) where
  refl a := by simp [cmpOrd]
  swap a b := by
    unfold cmpOrd
    rcases lt_trichotomy a b with h | h | h
    · simp [h, lt_asymm h, Ordering.swap]
    · simp [h, lt_irrefl, Ordering.swap]
    · simp [h, lt_asymm h, Ordering.swap]
  lt_trans h1 h2 := cmpOrd_lt_iff.mpr (lt_trans (cmpOrd_lt_iff.mp h1) (cmpOrd_lt_iff.mp h2))
  congr_left c h := by rw [cmpOrd_eq_iff.mp h]

theorem cmpPreId_laws : CmpLaws cmpPreId where
  refl a := by cases a <;> simp [cmpPreId, cmpOrd_laws.refl]
  swap a b := by
    cases a <;> cases b <;> simp [cmpPreId, Ordering.swap] <;> exact cmpOrd_laws.swap _ _
  lt_trans {a b c} h1 h2 := by
    cases a <;> cases b <;> cases c <;> simp_all [cmpPreId]
    · exact cmpOrd_laws.lt_trans h1 h2
    · exact cmpOrd_laws.lt_trans h1 h2
  congr_left {a b} c h := by
    cases a <;> cases b <;> simp_all [cmpPreId]
    · rw [cmpOrd_eq_iff.mp h]
    · rw [cmpOrd_eq_iff.mp h]

theorem cmpList_laws {α : Type} {cmp : α → α → Ordering} (h : CmpLaws cmp) :
    CmpLaws (cmpList cmp) where
  refl l := by
    induction l with
    | nil => rfl
    | cons a l ih => simp [cmpList, h.refl, ih]
  swap a b := by
    induction a generalizing b with
    | nil => cases b <;> simp [cmpList, Ordering.swap]
    | cons x xs ih =>
      cases b with
      | nil => simp [cmpList, Ordering.swap]
      | cons y ys =>
        simp only [cmpList]
        rw [h.swap x y]
        cases h2 : cmp y x <;> simp [Ordering.swap, ih]
  lt_trans {a b c} h1 h2 := by
    induction a generalizing b c with
    | nil =>
      cases b with
      | nil => simp [cmpList] at h1
      | cons y ys => cases c with
        | nil => simp [cmpList] at h2
        | cons z zs => simp [cmpList]
    | cons x xs ih =>
      cases b with
      | nil => simp [cmpList] at h1
      | cons y ys =>
        cases c with
        | nil => simp [cmpList] at h2
        | cons z zs =>
          simp only [cmpList] at h1 h2 ⊢
          cases hxy : cmp x y <;> rw [hxy] at h1 <;> try simp_all
          · -- cmp x y = .lt
            cases hyz : cmp y z <;> rw [hyz] at h2 <;> try simp_all
            · rw [h.lt_trans hxy hyz]
            · rw [← h.congr_right x hyz, hxy]
          · -- cmp x y = .eq
            cases hyz : cmp y z <;> rw [hyz] at h2 <;> try simp_all
            · rw [h.congr_left z hxy, hyz]
            · rw [h.congr_left z hxy, hyz]
              exact ih h1 h2
  congr_left {a b} c h0 := by
    induction a generalizing b c with
    | nil =>
      cases b with
      | nil => rfl
      | cons y ys => simp [cmpList] at h0
    | cons x xs ih =>
      cases b with
      | nil => simp [cmpList] at h0
      | cons y ys =>
        simp only [cmpList] at h0 ⊢
        cases hxy : cmp x y <;> rw [hxy] at h0 <;> try simp_all
        cases c with
        | nil => rfl
        | cons z zs =>
          simp only [cmpList]
          rw [h.congr_left z hxy]
          cases hyz : cmp y z <;> simp [ih _ h0]

theorem ordering_then_eq_eq {a b : Ordering} : a.then b = .eq ↔ a = .eq ∧ b = .eq := by
  cases a <;> simp [Ordering.then]

theorem ordering_then_swap {a b : Ordering} : (a.then b).swap = a.swap.then b.swap := by
  cases a <;> cases b <;> rfl

/-- A comparator that first compares under the image of `f` and breaks ties with
a second comparator keeps the comparator laws. -/
theorem CmpLaws.onKey {α β : Type} (f : α → β) {cb : β → β → Ordering} (hb : CmpLaws cb) :
    CmpLaws (fun a b => cb (f a) (f b)) where
  refl _ := hb.refl _
  swap _ _ := hb.swap _ _
  lt_trans h1 h2 := hb.lt_trans h1 h2
  congr_left c h := hb.congr_left (f c) h

theorem CmpLaws.comp {α β : Type} (f : α → β) {cb : β → β → Ordering} (hb : CmpLaws cb)
    {c2 : α → α → Ordering} (h2 : CmpLaws c2) :
    CmpLaws (fun a b => (cb (f a) (f b)).then (c2 a b)) where
  refl a := by simp [hb.refl, h2.refl, Ordering.then]
  swap a b := by
    simp only [hb.swap (f a) (f b), h2.swap a b, ← ordering_then_swap]
  lt_trans {a b c} h1 hx := by
    cases hab : cb (f a) (f b) <;> rw [hab] at h1 <;> simp [Ordering.then] at h1
    · -- first comparison .lt
      cases hbc : cb (f b) (f c) <;> rw [hbc] at hx <;> simp [Ordering.then] at hx
      · rw [hb.lt_trans hab hbc]; rfl
      · rw [hb.congr_right (f a) hbc] at hab
        rw [hab]; rfl
    · -- first comparison .eq
      cases hbc : cb (f b) (f c) <;> rw [hbc] at hx <;> simp [Ordering.then] at hx
      · rw [hb.congr_left (f c) hab, hbc]; rfl
      · rw [hb.congr_left (f c) hab, hbc]
        simpa [Ordering.then] using h2.lt_trans h1 hx
  congr_left {a b} c h := by
    obtain ⟨hcb, hc2⟩ := ordering_then_eq_eq.mp h
    rw [hb.congr_left (f c) hcb, h2.congr_left c hc2]

theorem cmpNumStr_laws : CmpLaws cmpNumStr :=
  CmpLaws.comp (fun s => (trimZeros s).length) cmpOrd_laws
    (CmpLaws.comp trimZeros cmpOrd_laws (CmpLaws.onKey String.length cmpOrd_laws))

theorem cmpBuildId_laws : CmpLaws cmpBuildId where
  refl a := by
    cases h : isDigits a <;> simp [cmpBuildId, h, cmpNumStr_laws.refl, cmpOrd_laws.refl]
  swap a b := by
    cases ha : isDigits a <;> cases hb : isDigits b <;>
      simp [cmpBuildId, ha, hb, Ordering.swap]
    · exact cmpOrd_laws.swap a b
    · exact cmpNumStr_laws.swap a b
  lt_trans {a b c} h1 h2 := by
    cases ha : isDigits a <;> cases hb : isDigits b <;> cases hc : isDigits c <;>
      simp_all [cmpBuildId]
    · exact cmpOrd_laws.lt_trans h1 h2
    · exact cmpNumStr_laws.lt_trans h1 h2
  congr_left {a b} c h := by
    cases ha : isDigits a <;> cases hb : isDigits b <;> simp_all [cmpBuildId]
    · rw [cmpOrd_eq_iff.mp h]
    · cases hc : isDigits c <;> simp [cmpNumStr_laws.congr_left c h]

theorem cmpPre_laws : CmpLaws cmpPre where
  refl a := by
    cases a with
    | nil => rfl
    | cons x xs => simpa [cmpPre] using (cmpList_laws cmpPreId_laws).refl (x :: xs)
  swap a b := by
    cases a <;> cases b <;> simp [cmpPre, Ordering.swap]
    exact (cmpList_laws cmpPreId_laws).swap _ _
  lt_trans {a b c} h1 h2 := by
    cases a with
    | nil => cases b <;> simp [cmpPre] at h1
    | cons x xs =>
      cases b with
      | nil => cases c <;> simp [cmpPre] at h2
      | cons y ys =>
        cases c with
        | nil => simp [cmpPre]
        | cons z zs =>
          simp only [cmpPre] at h1 h2 ⊢
          exact (cmpList_laws cmpPreId_laws).lt_trans h1 h2
  congr_left {a b} c h := by
    cases a with
    | nil => cases b with
      | nil => rfl
      | cons y ys => simp [cmpPre] at h
    | cons x xs =>
      cases b with
      | nil => simp [cmpPre] at h
      | cons y ys =>
        cases c with
        | nil => simp [cmpPre]
        | cons z zs =>
          simp only [cmpPre] at h ⊢
          exact (cmpList_laws cmpPreId_laws).congr_left _ h

theorem cmpVersion_laws : CmpLaws cmpVersion :=
  CmpLaws.comp Version.major cmpOrd_laws
    (CmpLaws.comp Version.minor cmpOrd_laws
      (CmpLaws.comp Version.patch cmpOrd_laws
        (CmpLaws.comp Version.pre cmpPre_laws
          (CmpLaws.onKey Version.build (cmpList_laws cmpBuildId_laws)))))

theorem cmpVersion_not_gt_trans {a b c : Version}
    (h1 : cmpVersion a b ≠ .gt) (h2 : cmpVersion b c ≠ .gt) : cmpVersion a c ≠ .gt := by
  cases hab : cmpVersion a b with
  | gt => exact absurd hab h1
  | eq => rw [cmpVersion_laws.congr_left c hab]; exact h2
  | lt =>
    cases hbc : cmpVersion b c with
    | gt => exact absurd hbc h2
    | eq => rw [cmpVersion_laws.congr_right a hbc] at hab; simp [hab]
    | lt => simp [cmpVersion_laws.lt_trans hab hbc]

theorem foldlMax_spec (vs : List Version) (acc : Version) :
    (vs.foldl (fun m x => if cmpVersion x m = .lt then m else x) acc) ∈ acc :: vs ∧
    cmpVersion acc (vs.foldl (fun m x => if cmpVersion x m = .lt then m else x) acc) ≠ .gt ∧
    ∀ w ∈ vs, cmpVersion w (vs.foldl (fun m x => if cmpVersion x m = .lt then m else x) acc) ≠ .gt := by
  induction vs generalizing acc with
  | nil => simp [cmpVersion_laws.refl]
  | cons x xs ih =>
    simp only [List.foldl_cons]
    by_cases hc : cmpVersion x acc = .lt
    · simp only [hc, if_pos rfl, reduceIte]
      obtain ⟨hmem, hle, hall⟩ := ih acc
      refine ⟨?_, hle, ?_⟩
      · rcases List.mem_cons.mp hmem with h | h
        · simp [h]
        · simp [List.mem_cons, h]
      · intro w hw
        rcases List.mem_cons.mp hw with h | h
        · subst h
          exact cmpVersion_not_gt_trans (by simp [hc]) hle
        · exact hall w h
    · simp only [hc, if_neg, reduceIte]
      obtain ⟨hmem, hle, hall⟩ := ih x
      refine ⟨?_, ?_, ?_⟩
      · rcases List.mem_cons.mp hmem with h | h
        · simp [List.mem_cons, h]
        · simp [List.mem_cons, h]
      · have hax : cmpVersion acc x ≠ .gt := by
          rw [cmpVersion_laws.swap acc x]
          exact ordering_swap_ne_gt.mpr hc
        exact cmpVersion_not_gt_trans hax hle
      · intro w hw
        rcases List.mem_cons.mp hw with h | h
        · subst h; exact hle
        · exact hall w h

theorem listMax_spec {l : List Version} {v : Version} (h : listMax l = some v) :
    v ∈ l ∧ ∀ w ∈ l, cmpVersion w v ≠ .gt := by
  cases l with
  | nil => simp [listMax] at h
  | cons x xs =>
    simp only [listMax, Option.some.injEq] at h
    subst h
    obtain ⟨hmem, hle, hall⟩ := foldlMax_spec xs x
    refine ⟨hmem, ?_⟩
    intro w hw
    rcases List.mem_cons.mp hw with h | h
    · subst h; exact hle
    · exact hall w h

theorem walkQueue_nil (fuel : Nat) (fs : DestFs)
    (files : List (List String × String)) :
    walkQueue fuel [] fs files = .ok (fs, files) := by
  cases fuel <;> rfl

theorem walkQueue_cons_error {fs : DestFs} {files : List (List String × String)}
    {item : QueueItem} {rest : List QueueItem} {e : IoErr} (fuel : Nat)
    (hpe : processEntries fs item.destPath item.srcPath item.entries = .error e) :
    walkQueue (fuel + 1) (item :: rest) fs files = .error e := by
  simp only [walkQueue, hpe]

theorem walkQueue_cons_ok {fs : DestFs} {files : List (List String × String)}
    {item : QueueItem} {rest : List QueueItem} {fs' : DestFs} {dirs : List QueueItem}
    {newFiles : List (List String × String)} (fuel : Nat)
    (hpe : processEntries fs item.destPath item.srcPath item.entries =
      .ok (fs', dirs, newFiles)) :
    walkQueue (fuel + 1) (item :: rest) fs files =
      walkQueue fuel (dirs.reverse ++ rest) fs' (files ++ newFiles) := by
  simp only [walkQueue, hpe]

theorem sizeEntries_pos (es : List (String × FsTree)) : 1 ≤ sizeEntries es := by
  cases es with
  | nil => simp [sizeEntries]
  | cons e rest =>
    obtain ⟨name, t⟩ := e
    simp [sizeEntries]
    omega

/-- Any two iteration bounds above the queue's total entry size give the walk
the same result: the bound is an embedding artifact, not program behaviour. -/
theorem walkQueue_fuel_irrelevant :
    ∀ (m n : Nat) (queue : List QueueItem) (fs : DestFs)
      (files : List (List String × String)),
      (queue.map (fun q => sizeEntries q.entries)).sum < m →
      (queue.map (fun q => sizeEntries q.entries)).sum < n →
      walkQueue m queue fs files = walkQueue n queue fs files := by
  intro m
  induction m with
  | zero => intro n queue fs files hm hn; omega
  | succ m ih =>
    intro n queue fs files hm hn
    cases queue with
    | nil => rw [walkQueue_nil, walkQueue_nil]
    | cons item rest =>
      have hpos : 1 ≤ sizeEntries item.entries := sizeEntries_pos item.entries
      have hn1 : ∃ n', n = n' + 1 := by
        refine ⟨n - 1, ?_⟩
        simp only [List.map_cons, List.sum_cons] at hn
        omega
      obtain ⟨n', rfl⟩ := hn1
      cases hpe : processEntries fs item.destPath item.srcPath item.entries with
      | error e => rw [walkQueue_cons_error m hpe, walkQueue_cons_error n' hpe]
      | ok r =>
        obtain ⟨fs', dirs, newFiles⟩ := r
        rw [walkQueue_cons_ok m hpe, walkQueue_cons_ok n' hpe]
        have hsize := processEntries_dirs_size hpe
        simp only [List.map_cons, List.sum_cons] at hm hn
        refine ih _ _ _ _ ?_ ?_ <;>
          simp only [List.map_append, List.sum_append, List.map_reverse,
            List.sum_reverse] <;> omega

theorem lookupFs_insertFs (fs : DestFs) (p : RelPath) (n : Node) (q : RelPath) :
    lookupFs (insertFs fs p n) q = if p = q then some n else lookupFs fs q := by
  induction fs with
  | nil => simp [insertFs, lookupFs]
  | cons e rest ih =>
    obtain ⟨r, m⟩ := e
    by_cases hr : r = p
    · subst hr
      by_cases hq : r = q
      · subst hq; simp [insertFs, lookupFs]
      · simp [insertFs, lookupFs, hq, fun h => hq (h : r = q)]
    · by_cases hq : r = q
      · subst hq
        have hpq : ¬ p = r := fun h => hr h.symm
        simp [insertFs, lookupFs, hr, hpq]
      · simp [insertFs, lookupFs, hr, hq, ih]

theorem createDirIgnoring_of_exists {fs : DestFs} {p : RelPath}
    (h : lookupFs fs p ≠ none) : createDirIgnoring fs p = .ok fs := by
  unfold createDirIgnoring createDir
  cases hl : lookupFs fs p with
  | none => exact absurd hl h
  | some n => simp [ignore_exists_error]

theorem createDirIgnoring_ok {fs : DestFs} {p : RelPath} {fs' : DestFs}
    (h : createDirIgnoring fs p = .ok fs') :
    lookupFs fs' p ≠ none ∧ ∀ q, lookupFs fs q ≠ none → lookupFs fs' q ≠ none := by
  unfold createDirIgnoring createDir at h
  cases hl : lookupFs fs p with
  | some n =>
    rw [hl] at h
    simp [ignore_exists_error] at h
    subst h
    exact ⟨by simp [hl], fun q hq => hq⟩
  | none =>
    rw [hl] at h
    simp at h
    subst h
    constructor
    · simp [lookupFs]
    · intro q hq
      by_cases hpq : p = q <;> simp [lookupFs, hpq, hq]

theorem processEntries_mono {fs : DestFs} {d : RelPath} {s : List String}
    {es : List (String × FsTree)} {fs' : DestFs} {dirs : List QueueItem}
    {files : List (List String × String)}
    (h : processEntries fs d s es = .ok (fs', dirs, files)) :
    ∀ q, lookupFs fs q ≠ none → lookupFs fs' q ≠ none := by
  induction es generalizing fs dirs files with
  | nil =>
    simp only [processEntries] at h
    cases h
    exact fun q hq => hq
  | cons e rest ih =>
    obtain ⟨name, t⟩ := e
    cases t with
    | file c =>
      simp only [processEntries, bind, Except.bind] at h
      cases hr : processEntries fs d s rest with
      | error e0 => simp only [hr] at h; cases h
      | ok r =>
        obtain ⟨fsr, dirsr, filesr⟩ := r
        simp only [hr] at h
        cases h
        exact ih hr
    | dir es2 err =>
      simp only [processEntries, bind, Except.bind] at h
      cases hc : createDirIgnoring fs (d ++ [name]) with
      | error e0 => simp only [hc] at h; cases h
      | ok fsA =>
        simp only [hc] at h
        cases hr : processEntries fsA d s rest with
        | error e0 => simp only [hr] at h; cases h
        | ok r =>
          obtain ⟨fsr, dirsr, filesr⟩ := r
          simp only [hr] at h
          cases h
          exact fun q hq => ih hr q ((createDirIgnoring_ok hc).2 q hq)

theorem processEntries_again {fs : DestFs} {d : RelPath} {s : List String}
    {es : List (String × FsTree)} {fs' : DestFs} {dirs : List QueueItem}
    {files : List (List String × String)}
    (h : processEntries fs d s es = .ok (fs', dirs, files)) (fs₂ : DestFs)
    (h₂ : ∀ q, lookupFs fs' q ≠ none → lookupFs fs₂ q ≠ none) :
    processEntries fs₂ d s es = .ok (fs₂, dirs, files) := by
  induction es generalizing fs dirs files with
  | nil =>
    simp only [processEntries] at h
    cases h
    rfl
  | cons e rest ih =>
    obtain ⟨name, t⟩ := e
    cases t with
    | file c =>
      simp only [processEntries, bind, Except.bind] at h ⊢
      cases hr : processEntries fs d s rest with
      | error e0 => simp only [hr] at h; cases h
      | ok r =>
        obtain ⟨fsr, dirsr, filesr⟩ := r
        simp only [hr] at h
        cases h
        simp only [ih hr]
    | dir es2 err =>
      simp only [processEntries, bind, Except.bind] at h ⊢
      cases hc : createDirIgnoring fs (d ++ [name]) with
      | error e0 => simp only [hc] at h; cases h
      | ok fsA =>
        simp only [hc] at h
        cases hr : processEntries fsA d s rest with
        | error e0 => simp only [hr] at h; cases h
        | ok r =>
          obtain ⟨fsr, dirsr, filesr⟩ := r
          simp only [hr] at h
          cases h
          have hdirA : lookupFs fsA (d ++ [name]) ≠ none := (createDirIgnoring_ok hc).1
          have hdir2 : lookupFs fs₂ (d ++ [name]) ≠ none :=
            h₂ _ (processEntries_mono hr _ hdirA)
          simp only [createDirIgnoring_of_exists hdir2, ih hr]

theorem walkQueue_mono {fuel : Nat} {queue : List QueueItem} {fs : DestFs}
    {files : List (List String × String)} {fsW : DestFs}
    {filesW : List (List String × String)}
    (h : walkQueue fuel queue fs files = .ok (fsW, filesW)) :
    ∀ p, lookupFs fs p ≠ none → lookupFs fsW p ≠ none := by
  induction fuel generalizing queue fs files with
  | zero =>
    cases queue with
    | nil =>
      rw [walkQueue_nil] at h
      cases h
      exact fun p hp => hp
    | cons item rest => cases h
  | succ fuel ih =>
    cases queue with
    | nil =>
      rw [walkQueue_nil] at h
      cases h
      exact fun p hp => hp
    | cons item rest =>
      cases hpe : processEntries fs item.destPath item.srcPath item.entries with
      | error e =>
        rw [walkQueue_cons_error fuel hpe] at h
        cases h
      | ok r =>
        obtain ⟨fs', dirs, newFiles⟩ := r
        rw [walkQueue_cons_ok fuel hpe] at h
        exact fun p hp => ih h p (processEntries_mono hpe p hp)

theorem walkQueue_again {fuel : Nat} {queue : List QueueItem} {fs : DestFs}
    {files : List (List String × String)} {fsW : DestFs}
    {filesW : List (List String × String)}
    (h : walkQueue fuel queue fs files = .ok (fsW, filesW)) (fs₂ : DestFs)
    (h₂ : ∀ p, lookupFs fsW p ≠ none → lookupFs fs₂ p ≠ none) :
    walkQueue fuel queue fs₂ files = .ok (fs₂, filesW) := by
  induction fuel generalizing queue fs files with
  | zero =>
    cases queue with
    | nil =>
      rw [walkQueue_nil] at h ⊢
      cases h
      rfl
    | cons item rest => cases h
  | succ fuel ih =>
    cases queue with
    | nil =>
      rw [walkQueue_nil] at h ⊢
      cases h
      rfl
    | cons item rest =>
      cases hpe : processEntries fs item.destPath item.srcPath item.entries with
      | error e =>
        rw [walkQueue_cons_error fuel hpe] at h
        cases h
      | ok r =>
        obtain ⟨fs', dirs, newFiles⟩ := r
        rw [walkQueue_cons_ok fuel hpe] at h
        have hpe2 : processEntries fs₂ item.destPath item.srcPath item.entries =
            .ok (fs₂, dirs, newFiles) := by
          refine processEntries_again hpe fs₂ ?_
          intro q hq
          exact h₂ q (walkQueue_mono h q hq)
        rw [walkQueue_cons_ok fuel hpe2]
        exact ih h

theorem lookupFs_applyCopies (fs : DestFs) (ws : List (RelPath × String)) (p : RelPath) :
    lookupFs (applyCopies fs ws) p =
      match lastWrite p ws with
      | some c => some (.fileNode c)
      | none => lookupFs fs p := by
  induction ws generalizing fs with
  | nil => simp [applyCopies, lastWrite]
  | cons w rest ih =>
    obtain ⟨q, c⟩ := w
    simp only [applyCopies, List.foldl_cons, lastWrite]
    rw [show List.foldl (fun acc w => insertFs acc w.1 (.fileNode w.2))
        (insertFs fs q (.fileNode c)) rest = applyCopies (insertFs fs q (.fileNode c)) rest
      from rfl]
    rw [ih]
    cases hlw : lastWrite p rest with
    | some c2 => simp
    | none =>
      simp only []
      rw [lookupFs_insertFs]
      by_cases hqp : q = p
      · subst hqp; simp
      · simp [hqp, fun h => hqp (h : q = p)]

theorem lastWrite_of_mem {p : RelPath} {c : String} {ws : List (RelPath × String)}
    (h : (p, c) ∈ ws) : lastWrite p ws ≠ none := by
  induction ws with
  | nil => cases h
  | cons w rest ih =>
    simp only [lastWrite]
    rcases List.mem_cons.mp h with h1 | h1
    · cases hlw : lastWrite p rest with
      | some c2 => simp
      | none => simp [← h1]
    · cases hlw : lastWrite p rest with
      | some c2 => simp
      | none => exact absurd hlw (ih h1)

theorem copyFiles_ok_applyCopies {fs : DestFs} {ws : List (RelPath × String)}
    {fs' : DestFs} (h : copyFiles fs ws = .ok fs') : fs' = applyCopies fs ws := by
  induction ws generalizing fs with
  | nil =>
    simp only [copyFiles] at h
    cases h
    rfl
  | cons w rest ih =>
    obtain ⟨p, c⟩ := w
    simp only [copyFiles, bind, Except.bind, copyFile] at h
    cases hl : lookupFs fs p with
    | some n =>
      cases n with
      | dirNode => simp only [hl] at h; cases h
      | fileNode c2 =>
        simp only [hl] at h
        exact ih h
    | none =>
      simp only [hl] at h
      exact ih h

theorem copyFiles_total_of_files {fs : DestFs} {ws : List (RelPath × String)}
    (hw : ∀ w ∈ ws, ∃ c, lookupFs fs w.1 = some (.fileNode c)) :
    copyFiles fs ws = .ok (applyCopies fs ws) := by
  induction ws generalizing fs with
  | nil => rfl
  | cons w rest ih =>
    obtain ⟨p, c⟩ := w
    obtain ⟨c0, hc0⟩ := hw (p, c) (List.mem_cons_self _ _)
    simp only [copyFiles, bind, Except.bind, copyFile, hc0]
    have : copyFiles (insertFs fs p (.fileNode c)) rest =
        .ok (applyCopies (insertFs fs p (.fileNode c)) rest) := by
      refine ih ?_
      intro w hwmem
      rcases hw w (List.mem_cons_of_mem _ hwmem) with ⟨cw, hcw⟩
      rw [lookupFs_insertFs]
      by_cases hpw : p = w.1
      · exact ⟨c, by simp [hpw]⟩
      · exact ⟨cw, by simp [hpw, hcw]⟩
    simpa [applyCopies] using this

theorem applyCopies_mono {fs : DestFs} {ws : List (RelPath × String)} {p : RelPath}
    (h : lookupFs fs p ≠ none) : lookupFs (applyCopies fs ws) p ≠ none := by
  rw [lookupFs_applyCopies]
  cases lastWrite p ws <;> simp [h]

theorem move_extracted_files_ok_again {tempEntries : List (String × FsTree)}
    {tempReadErr : Option IoErr} {v : Version} {fs fs1 : DestFs}
    (h : move_extracted_files tempEntries tempReadErr v fs = .ok fs1) :
    ∃ fs2, move_extracted_files tempEntries tempReadErr v fs1 = .ok fs2 ∧
      ∀ p, lookupFs fs2 p = lookupFs fs1 p := by
  unfold move_extracted_files at h ⊢
  simp only [bind, Except.bind] at h ⊢
  cases hu : unwrapRoot tempEntries tempReadErr with
  | error e => simp only [hu] at h; cases h
  | ok r =>
    obtain ⟨es, rerr, wrapper⟩ := r
    simp only [hu] at h ⊢
    cases hcd : createDirIgnoring fs [v.toString] with
    | error e => simp only [hcd] at h; cases h
    | ok fsB =>
      simp only [hcd] at h
      set sb := (match wrapper with | some n => [n] | none => ([] : List String)) with hsb
      cases hwalk : walkQueue (sizeEntries es + 1) [⟨[v.toString], sb, es, rerr⟩] fsB [] with
      | error e => simp only [hwalk] at h; cases h
      | ok r2 =>
        obtain ⟨fsW, files⟩ := r2
        simp only [hwalk] at h
        have hfs1 : fs1 = applyCopies fsW (destWrites [v.toString] files) :=
          copyFiles_ok_applyCopies h
        have hmono1 : ∀ p, lookupFs fsW p ≠ none → lookupFs fs1 p ≠ none := by
          intro p hp
          rw [hfs1]
          exact applyCopies_mono hp
        have hvp : lookupFs fs1 [v.toString] ≠ none :=
          hmono1 _ (walkQueue_mono hwalk _ (createDirIgnoring_ok hcd).1)
        rw [createDirIgnoring_of_exists hvp]
        dsimp only
        rw [walkQueue_again hwalk fs1 hmono1]
        dsimp only
        have hcopy2 : copyFiles fs1 (destWrites [v.toString] files) =
            .ok (applyCopies fs1 (destWrites [v.toString] files)) := by
          refine copyFiles_total_of_files ?_
          intro w hw
          obtain ⟨p, c⟩ := w
          have hne := lastWrite_of_mem hw
          cases hlw : lastWrite p (destWrites [v.toString] files) with
          | none => exact absurd hlw hne
          | some c2 =>
            refine ⟨c2, ?_⟩
            rw [hfs1, lookupFs_applyCopies, hlw]
        rw [hcopy2]
        refine ⟨applyCopies fs1 (destWrites [v.toString] files), rfl, ?_⟩
        intro p
        rw [lookupFs_applyCopies]
        cases hlw : lastWrite p (destWrites [v.toString] files) with
        | none => simp
        | some c2 =>
          simp only []
          rw [hfs1, lookupFs_applyCopies, hlw]

theorem versionLt_true_iff {a b : Version} :
    versionLt a b = true ↔ cmpVersion a b = .lt := by
  simp [versionLt]

theorem versionLt_irrefl (a : Version) : versionLt a a = false := by
  simp [versionLt, cmpVersion_laws.refl]

theorem versionLt_asymm {a b : Version} (h : versionLt a b = true) :
    versionLt b a = false := by
  rw [versionLt_true_iff] at h
  simp only [versionLt, decide_eq_false_iff_not]
  rw [cmpVersion_laws.swap b a, h]
  decide

theorem listMax_eq_none_iff {l : List Version} : listMax l = none ↔ l = [] := by
  cases l <;> simp [listMax]

/-- C1: for every pair of successfully resolved versions, the update pipeline
(download, extract, materialize, activate) runs if and only if
`installed < published` under semantic-version ordering; when the installed
version is equal to or newer than the published one, the run is the `UpToDate`
no-op that attempts no mutating stage. -/
theorem C1_update_gate :
    ∀ (installed_version published_version : Version) (stageOk : Stage → Bool),
      ((mainStages installed_version published_version stageOk).1 ≠ [] ↔
        versionLt installed_version published_version = true) ∧
      ((published_version = installed_version ∨
          versionLt published_version installed_version = true) →
        mainStages installed_version published_version stageOk = ([], .upToDate)) := by
  intro i p ok
  constructor
  · unfold mainStages
    by_cases h : versionLt i p = true
    · simp only [h, if_true]
      split_ifs <;> simp
    · simp [h]
  · intro hcase
    have hnot : versionLt i p = false := by
      rcases hcase with hcase | hcase
      · rw [hcase]
        exact versionLt_irrefl i
      · exact versionLt_asymm hcase
    unfold mainStages
    simp [hnot]

/-- C1 witness: equal versions produce the `UpToDate` no-op. -/
theorem C1_update_gate_witness :
    mainStages v3137 v3137 (fun _ => true) = ([], .upToDate) :=
  (C1_update_gate v3137 v3137 (fun _ => true)).2 (Or.inl rfl)

/-- C5 counterexample: with equal resolved versions the run is the up-to-date
no-op, yet the process exit status is 1 (the explicit `exit(1)` at
src/main.rs line 554), not the success status the claim requires. -/
theorem C5_upToDate_exits_one :
    (mainStages v3137 v3137 (fun _ => true)).2 = .upToDate ∧
    mainExitCode (mainStages v3137 v3137 (fun _ => true)).2 = 1 := by decide

/-- C5 amended: the process terminates successfully (exit 0) exactly when an
update is performed; the already-current run terminates with exit status 1
(the explicit `exit(1)`), and a stage failure also terminates with the
non-zero status. -/
theorem C5_exit_behavior :
    ∀ (installed_version published_version : Version) (stageOk : Stage → Bool),
      (mainExitCode (mainStages installed_version published_version stageOk).2 = 0 ↔
        (mainStages installed_version published_version stageOk).2 = .updated) ∧
      ((mainStages installed_version published_version stageOk).2 = .upToDate →
        mainExitCode (mainStages installed_version published_version stageOk).2 = 1) ∧
      (∀ st, (mainStages installed_version published_version stageOk).2 = .failed st →
        mainExitCode (mainStages installed_version published_version stageOk).2 = 1) := by
  intro i p ok
  unfold mainStages
  split_ifs <;> simp [mainExitCode]

/-- C5 witness: an update run exits 0; a failed download exits 1. -/
theorem C5_exit_behavior_witness :
    mainExitCode (mainStages v3137 v3138 (fun _ => true)).2 = 0 ∧
    mainExitCode (mainStages v3137 v3138 (fun _ => false)).2 = 1 :=
  ⟨(C5_exit_behavior v3137 v3138 (fun _ => true)).1.mpr (by decide),
   (C5_exit_behavior v3137 v3138 (fun _ => false)).2.2 .download (by decide)⟩

/-- C3: `latest_version` parses every anchor-link token as a semantic version,
silently discarding unparseable tokens, and returns the maximum surviving
version under semantic-version ordering; it fails with the no-versions error
exactly when zero tokens parse.  On the listing tokens
`["3.13.7", "not-a-version", "3.13.8", "readme"]` it returns `3.13.8`. -/
theorem C3_latest_version_max :
    (∀ tokens : List String,
      latest_version tokens = .error noVersionsMsg ↔ versions tokens = []) ∧
    (∀ (tokens : List String) (v : Version), latest_version tokens = .ok v →
      v ∈ versions tokens ∧ ∀ w ∈ versions tokens, cmpVersion w v ≠ .gt) ∧
    latest_version ["3.13.7", "not-a-version", "3.13.8", "readme"] = .ok v3138 := by
  refine ⟨?_, ?_, rfl⟩
  · intro tokens
    unfold latest_version
    cases hl : listMax (versions tokens) with
    | some v =>
      constructor
      · intro h
        cases h
      · intro h
        rw [listMax_eq_none_iff.mpr h] at hl
        cases hl
    | none => simp [listMax_eq_none_iff.mp hl]
  · intro tokens v h
    unfold latest_version at h
    cases hl : listMax (versions tokens) with
    | none => rw [hl] at h; cases h
    | some w =>
      rw [hl] at h
      cases h
      exact listMax_spec hl

/-- C3 witness: on the documented listing the maximum is a member and no
survivor exceeds it. -/
theorem C3_latest_version_max_witness :
    v3138 ∈ versions ["3.13.7", "not-a-version", "3.13.8", "readme"] ∧
    ∀ w ∈ versions ["3.13.7", "not-a-version", "3.13.8", "readme"],
      cmpVersion w v3138 ≠ .gt :=
  (C3_latest_version_max.2.1 ["3.13.7", "not-a-version", "3.13.8", "readme"]
    v3138 rfl)

/-- C8: `archive_filename` is a pure function of the target profile and
version producing exactly `teamspeak3-server_<platform-token>-<version>.<ext>`
where the extension is `zip` for the Windows and macOS profiles and `tar.bz2`
for all other profiles; on Windows x64 and version `3.13.7` it carries the
`.zip` suffix, on Linux x64 the `.tar.bz2` suffix. -/
theorem C8_archive_filename_pattern :
    (∀ (t : Tuple) (v : Version),
      t.archive_filename v = "teamspeak3-server_" ++ t.target_string ++ "-"
        ++ v.toString ++ "." ++ t.archive_type.extension) ∧
    (∀ t : Tuple,
      t.archive_type.extension =
        if t = .Mac ∨ t = .WindowsX86 ∨ t = .WindowsX8664 then "zip"
        else "tar.bz2") ∧
    Tuple.archive_filename .WindowsX8664 v3137 =
      "teamspeak3-server_win64-3.13.7.zip" ∧
    Tuple.archive_filename .LinuxX8664 v3137 =
      "teamspeak3-server_linux_amd64-3.13.7.tar.bz2" := by
  refine ⟨fun t v => rfl, fun t => ?_, by decide, by decide⟩
  cases t <;> simp [Tuple.archive_type, ArchiveType.extension]

/-- C9: target identifier resolution round-trips
(`from_str (target_string t) = Ok t` for every variant), is case-insensitive
(`from_str` lowercases its input before matching, so any string whose
lowercasing is a recognized identifier resolves to that variant), and any
other string fails with `NotRecognized` carrying the original input. -/
theorem C9_from_str_round_trip :
    (∀ t : Tuple, Tuple.from_str t.target_string = .ok t) ∧
    (∀ (s : String) (t : Tuple), strToLower s = t.target_string →
      Tuple.from_str s = .ok t) ∧
    (∀ s : String, (∀ t : Tuple, strToLower s ≠ t.target_string) →
      Tuple.from_str s = .error (.NotRecognized s)) := by
  refine ⟨fun t => by cases t <;> rfl, ?_, ?_⟩
  · intro s t h
    unfold Tuple.from_str
    rw [h]
    cases t <;> rfl
  · intro s hne
    unfold Tuple.from_str
    split
    · exact absurd (by assumption) (hne .LinuxX8664)
    · exact absurd (by assumption) (hne .WindowsX8664)
    · exact absurd (by assumption) (hne .LinuxAlpine)
    · exact absurd (by assumption) (hne .FreeBSDX8664)
    · exact absurd (by assumption) (hne .Mac)
    · exact absurd (by assumption) (hne .WindowsX86)
    · exact absurd (by assumption) (hne .LinuxX86)
    · rfl

/-- C9 witness: an upper-case variant resolves, and an unrecognized string
fails carrying the original input. -/
theorem C9_from_str_round_trip_witness :
    Tuple.from_str "WIN64" = .ok .WindowsX8664 ∧
    Tuple.from_str "plan9_amd64" = .error (.NotRecognized "plan9_amd64") :=
  ⟨C9_from_str_round_trip.2.1 "WIN64" .WindowsX8664 (by decide),
   C9_from_str_round_trip.2.2 "plan9_amd64" (fun t => by cases t <;> decide)⟩

/-- C10: the `swap_link` prelude panics — rather than returning an error —
exactly when the configured symlink path has no final normal component (a
root path or a path ending in `..`), when that component is not valid UTF-8,
or when the system clock reads earlier than the Unix epoch; in the absence of
these conditions it produces the backup file name
`<pointer-filename>.<unix-timestamp-seconds>` without panicking. -/
theorem C10_swap_link_panic_conditions :
    (∀ (p : List PathComp) (c : Clock),
      (swapLinkBackupName p c = none ↔
        (fileNameOf p = none ∨ fileNameOf p = some none ∨ c.beforeEpoch = true)) ∧
      (∀ name, fileNameOf p = some (some name) → c.beforeEpoch = false →
        swapLinkBackupName p c = some (name ++ "." ++ Nat.repr c.secs))) ∧
    fileNameOf [PathComp.rootDir] = none ∧
    fileNameOf [PathComp.rootDir, .normal (some "opt"), .parentDir] = none ∧
    fileNameOf [PathComp.rootDir, .normal none] = some none := by
  refine ⟨?_, rfl, rfl, rfl⟩
  intro p c
  constructor
  · unfold swapLinkBackupName
    cases hf : fileNameOf p with
    | none => simp
    | some o =>
      cases o with
      | none => simp
      | some name =>
        cases hb : c.beforeEpoch <;> simp [hb]
  · intro name hf hb
    unfold swapLinkBackupName
    rw [hf, hb]
    simp

/-- C10 witness: a normal UTF-8 pointer path with a post-epoch clock produces
the timestamped backup name; a root path panics. -/
theorem C10_swap_link_panic_conditions_witness :
    swapLinkBackupName [.rootDir, .normal (some "opt"), .normal (some "teamspeak")]
      { beforeEpoch := false, secs := 42 } = some "teamspeak.42" ∧
    swapLinkBackupName [PathComp.rootDir] { beforeEpoch := false, secs := 42 } = none :=
  ⟨(C10_swap_link_panic_conditions.1
      [.rootDir, .normal (some "opt"), .normal (some "teamspeak")]
      { beforeEpoch := false, secs := 42 }).2 "teamspeak" rfl rfl,
   (C10_swap_link_panic_conditions.1 [PathComp.rootDir]
      { beforeEpoch := false, secs := 42 }).1.mpr (Or.inl rfl)⟩

/-- C4 counterexample: with two top-level entries the unwrap step still
descends (into the first entry), refuting "descends if and only if the root
contains exactly one entry"; the second top-level directory's contents are
then never materialized. -/
theorem C4_two_entries_still_descend :
    unwrapRoot twoRootEntries none = .ok (aEntries, none, some "A") ∧
    twoRootEntries.length = 2 ∧
    (move_extracted_files twoRootEntries none v3138 []).map (fun fs =>
        (lookupFs fs ["3.13.8", "f"], lookupFs fs ["3.13.8", "g"])) =
      .ok (some (.fileNode "xx"), none) := by
  exact ⟨rfl, rfl, rfl⟩

/-- C4 amended: the unwrap step descends one level into the first top-level
entry whenever the extraction root contains at least one entry (not only when
it contains exactly one); exactly one wrapper path segment is stripped from
every copied file's destination-relative path, so the single-wrapper
`TeamSpeakServer` scenario materializes `bin`, `libs`, ... as the release
tree's immediate children, with the wrapper name absent. -/
theorem C4_unwrap_first_entry :
    (∀ rerr : Option IoErr, unwrapRoot [] rerr = .ok ([], rerr, none)) ∧
    (∀ (name : String) (es2 : List (String × FsTree)) (err rerr : Option IoErr)
       (rest : List (String × FsTree)),
      unwrapRoot ((name, .dir es2 err) :: rest) rerr = .ok (es2, err, some name)) ∧
    (∀ (name content : String) (rest : List (String × FsTree))
       (rerr : Option IoErr),
      unwrapRoot ((name, .file content) :: rest) rerr = .error .notADirectory) ∧
    (move_extracted_files wrapTree none v3138 []).map (fun fs =>
        (lookupFs fs ["3.13.8", "bin"], lookupFs fs ["3.13.8", "bin", "ts3server"],
         lookupFs fs ["3.13.8", "libs"], lookupFs fs ["3.13.8", "LICENSE"],
         lookupFs fs ["3.13.8", "TeamSpeakServer"])) =
      .ok (some .dirNode, some (.fileNode "elf"), some .dirNode,
        some (.fileNode "gpl"), none) := by
  exact ⟨fun rerr => rfl, fun name es2 err rerr rest => rfl,
    fun name content rest rerr => rfl, rfl⟩

/-- C7 counterexample: a failure while reading directory entries during the
walk of the extracted tree does not cause `move_extracted_files` to return
the error — the `while let Ok(Some(..))` pattern silently ends that
directory's iteration and materialization completes successfully. -/
theorem C7_read_error_swallowed :
    move_extracted_files readErrTree none v3137 [] =
      .ok [(["3.13.7", "data"], .dirNode), (["3.13.7"], .dirNode),
           (["3.13.7", "kept"], .fileNode "k")] := rfl

/-- C7 amended: during materialization, `AlreadyExists` from directory
creation is the only creation error treated as success and every other
creation error is kept (`ignore_exists_error`), and a failing file copy aborts
the run with its error; however, an I/O failure from `read_dir.next_entry()`
during the walk is silently discarded by the `while let Ok(Some(..))` pattern
rather than returned. -/
theorem C7_error_policy :
    (∀ e : IoErr, e ≠ .alreadyExists → ignore_exists_error e = .error e) ∧
    ignore_exists_error .alreadyExists = .ok () ∧
    move_extracted_files clashTree none v3137 clashFs = .error .isADirectory := by
  refine ⟨?_, rfl, rfl⟩
  intro e he
  cases e
  · exact absurd rfl he
  · rfl
  · rfl
  · rfl
  · rfl
  · rfl

/-- C7 witness: a non-`AlreadyExists` creation error is kept. -/
theorem C7_error_policy_witness :
    ignore_exists_error .readFailed = .error .readFailed :=
  C7_error_policy.1 .readFailed (by decide)

/-- C6: materialization is idempotent: when a run of `move_extracted_files`
succeeds, running it again with the same extracted input and the same target
version succeeds and produces the same final release tree — in particular the
second run does not fail on "already exists" conditions; `AlreadyExists` from
creating the version root or a mirrored subdirectory is treated as success
while every other creation error propagates. -/
theorem C6_materialization_idempotent :
    (∀ (tempEntries : List (String × FsTree)) (tempReadErr : Option IoErr)
       (v : Version) (fs fs1 : DestFs),
      move_extracted_files tempEntries tempReadErr v fs = .ok fs1 →
      ∃ fs2, move_extracted_files tempEntries tempReadErr v fs1 = .ok fs2 ∧
        ∀ p, lookupFs fs2 p = lookupFs fs1 p) ∧
    (∀ e, ignore_exists_error e =
      if e = .alreadyExists then .ok () else .error e) := by
  refine ⟨fun te terr v fs fs1 h => move_extracted_files_ok_again h, ?_⟩
  intro e
  cases e <;> rfl

/-- C6 witness: after a concrete successful first run, the second run succeeds
and leaves the release tree unchanged. -/
theorem C6_materialization_idempotent_witness :
    ∃ fs2, move_extracted_files idemTree none v3137 idemFs1 = .ok fs2 ∧
      ∀ p, lookupFs fs2 p = lookupFs idemFs1 p :=
  C6_materialization_idempotent.1 idemTree none v3137 [] idemFs1 rfl

theorem lookupLink_removeLink_self (links : List (AbsPath × AbsPath)) (p : AbsPath) :
    lookupLink (removeLink links p) p = none := by
  induction links with
  | nil => rfl
  | cons e rest ih =>
    obtain ⟨q, t⟩ := e
    by_cases hq : q = p
    · simp [removeLink, hq, ih]
    · simp [removeLink, hq, lookupLink, ih]

/-- C2: activation is order-safe: `swap_link` first renames (never deletes)
the existing active pointer to the backup name
`<pointer-filename>.<unix-timestamp-seconds>` and only afterwards creates the
new symbolic link at the original pointer path targeting the canonical
`releases-root/<version>` directory; in the starting state, after the rename,
and after completion, at least one of the original name and the backup name
resolves to an existing installation directory, and after completion the
pointer resolves to `releases-root/<version>` while the backup resolves to
the prior target. -/
theorem C2_swap_link_order_safe :
    ∀ (fs : LinkFS) (symlink_path releases_path : AbsPath) (v : Version)
      (ts : Nat) (oldTgt : AbsPath),
      lookupLink fs.links symlink_path = some oldTgt →
      oldTgt ∈ fs.dirs →
      symlink_path ∉ fs.dirs →
      releases_path ∈ fs.dirs →
      releases_path ++ [v.toString] ∈ fs.dirs →
      setFileName symlink_path
          ((symlink_path.getLast?.getD "") ++ "." ++ Nat.repr ts) ≠ symlink_path →
      ∃ fs1 fs2,
        swap_link fs symlink_path releases_path v ts = .ok (fs1, fs2) ∧
        fs1.dirs = fs.dirs ∧ fs2.dirs = fs.dirs ∧
        lookupLink fs1.links (setFileName symlink_path
          ((symlink_path.getLast?.getD "") ++ "." ++ Nat.repr ts)) = some oldTgt ∧
        lookupLink fs1.links symlink_path = none ∧
        lookupLink fs2.links symlink_path = some (releases_path ++ [v.toString]) ∧
        lookupLink fs2.links (setFileName symlink_path
          ((symlink_path.getLast?.getD "") ++ "." ++ Nat.repr ts)) = some oldTgt ∧
        (∀ s ∈ [fs, fs1, fs2], ∃ q,
          (lookupLink s.links symlink_path = some q ∨
           lookupLink s.links (setFileName symlink_path
             ((symlink_path.getLast?.getD "") ++ "." ++ Nat.repr ts)) = some q) ∧
          q ∈ s.dirs) := by
  intro fs sp rp v ts oldTgt hlook hold hspdir hrp hrel hne
  set bp := setFileName sp ((sp.getLast?.getD "") ++ "." ++ Nat.repr ts) with hbp
  have hcanon : canonicalizeDir fs rp = .ok rp := by simp [canonicalizeDir, hrp]
  have hren : renameLink fs sp bp =
      .ok { fs with links := (bp, oldTgt) :: removeLink fs.links sp } := by
    simp [renameLink, hlook]
  have hlk1bp : lookupLink ((bp, oldTgt) :: removeLink fs.links sp) bp =
      some oldTgt := by
    simp [lookupLink]
  have hlk1sp : lookupLink ((bp, oldTgt) :: removeLink fs.links sp) sp = none := by
    simp only [lookupLink]
    rw [if_neg hne]
    exact lookupLink_removeLink_self fs.links sp
  have hsym : symlinkDir { fs with links := (bp, oldTgt) :: removeLink fs.links sp }
      (rp ++ [v.toString]) sp =
      .ok { fs with links := (sp, rp ++ [v.toString]) ::
        (bp, oldTgt) :: removeLink fs.links sp } := by
    unfold symlinkDir
    rw [if_neg]
    simp only [hlk1sp, Option.isSome_none, Bool.false_eq_true, false_or]
    exact hspdir
  refine ⟨{ fs with links := (bp, oldTgt) :: removeLink fs.links sp },
    { fs with links := (sp, rp ++ [v.toString]) ::
      (bp, oldTgt) :: removeLink fs.links sp },
    ?_, rfl, rfl, ?_, ?_, ?_, ?_, ?_⟩
  · unfold swap_link
    simp only [bind, Except.bind, hcanon, hren, hsym]
  · simp [lookupLink]
  · simpa [lookupLink, hne] using hlk1sp
  · simp [lookupLink]
  · simp only [lookupLink]
    rw [if_neg (fun h => hne h.symm)]
    simp
  · intro s hs
    simp only [List.mem_cons, List.mem_singleton] at hs
    rcases hs with hs | hs | hs
    · subst hs
      exact ⟨oldTgt, Or.inl hlook, hold⟩
    · subst hs
      exact ⟨oldTgt, Or.inr hlk1bp, hold⟩
    · rcases hs with hs | hs
      · subst hs
        refine ⟨rp ++ [v.toString], Or.inl (by simp [lookupLink]), hrel⟩
      · cases hs

/-- C2 witness: a concrete activation run with an existing pointer, releases
root and materialized release. -/
theorem C2_swap_link_order_safe_witness :
    ∃ fs1 fs2,
      swap_link swapFs0 ["opt", "teamspeak"] ["opt", "rel"] v3138 100 =
        .ok (fs1, fs2) ∧
      fs1.dirs = swapFs0.dirs ∧ fs2.dirs = swapFs0.dirs ∧
      lookupLink fs1.links (setFileName ["opt", "teamspeak"]
        ((["opt", "teamspeak"].getLast?.getD "") ++ "." ++ Nat.repr 100)) =
        some ["opt", "rel", "3.13.7"] ∧
      lookupLink fs1.links ["opt", "teamspeak"] = none ∧
      lookupLink fs2.links ["opt", "teamspeak"] =
        some (["opt", "rel"] ++ [v3138.toString]) ∧
      lookupLink fs2.links (setFileName ["opt", "teamspeak"]
        ((["opt", "teamspeak"].getLast?.getD "") ++ "." ++ Nat.repr 100)) =
        some ["opt", "rel", "3.13.7"] ∧
      (∀ s ∈ [swapFs0, fs1, fs2], ∃ q,
        (lookupLink s.links ["opt", "teamspeak"] = some q ∨
         lookupLink s.links (setFileName ["opt", "teamspeak"]
           ((["opt", "teamspeak"].getLast?.getD "") ++ "." ++ Nat.repr 100)) = some q) ∧
        q ∈ s.dirs) :=
  C2_swap_link_order_safe swapFs0
    ["opt", "teamspeak"] ["opt", "rel"] v3138 100 ["opt", "rel", "3.13.7"]
    (by decide) (by decide) (by decide) (by decide) (by decide) (by decide)

end TSUpdater
